import Mathlib

/-!
Verification of the SMCompiler secret-sharing core.

This file shallowly embeds the Python modules
secret_sharing.py, ttp.py, expression.py and smc_party.py:
pure functions become Lean functions, assertion failures and raised
exceptions become `Except.error`, and the random draws performed by
`random.randint` / `random.getrandbits` become explicit parameters.
Python integers are modelled by `Int`; Python's `%` on a positive
modulus agrees with `Int.emod`.
-/

namespace SMC

/-- The field modulus used throughout secret_sharing.py (default_q = 10337). -/
def default_q : Int := 10337

/-- A finite field element: either a public scalar or a party-indexed share
(the two concrete subclasses of the Python FieldElement class).
The stored value is whatever the Python object's value attribute holds. -/
inductive FieldElement where
  | scalarE (value : Int)
  | shareE (index : Int) (value : Int)
deriving DecidableEq, Repr

/-- The ScalarElement constructor: stores value mod Q (FieldElement.__init__). -/
def ScalarElement (value : Int) : FieldElement :=
  .scalarE (value % default_q)

/-- The Share constructor: stores the index and value mod Q (Share.__init__
followed by FieldElement.__init__). -/
def Share (index value : Int) : FieldElement :=
  .shareE index (value % default_q)

/-- The stored value attribute of a field element. -/
def FieldElement.value : FieldElement → Int
  | .scalarE v => v
  | .shareE _ v => v

/-- The index attribute of a Share; a ScalarElement has no index in the
source, so we return 0 there (never used on scalars in any statement). -/
def FieldElement.index : FieldElement → Int
  | .scalarE _ => 0
  | .shareE i _ => i

/-- Whether the element is a ScalarElement (Python isinstance check). -/
def FieldElement.isScalar : FieldElement → Bool
  | .scalarE _ => true
  | .shareE _ _ => false

/-- FieldElement.__add__: scalar+scalar, scalar+share (constant applied only
at index 0, after reorder_elements), share+share (indices must match,
`assert self.index == other.index`). Assertion failures are errors. -/
def FieldElement.add : FieldElement → FieldElement → Except String FieldElement
  | .scalarE v1, .scalarE v2 => .ok (ScalarElement (v1 + v2))
  | .scalarE c, .shareE i v =>
      if i = 0 then .ok (Share i (v + c)) else .ok (Share i v)
  | .shareE i v, .scalarE c =>
      if i = 0 then .ok (Share i (v + c)) else .ok (Share i v)
  | .shareE i1 v1, .shareE i2 v2 =>
      if i1 = i2 then .ok (Share i1 (v1 + v2))
      else .error "assert self.index == other.index"

/-- FieldElement.__sub__: scalar-scalar, share-scalar (delegates to
ScalarElement(-other.value) + self), scalar-share (RuntimeError),
share-share (indices must match). -/
def FieldElement.sub : FieldElement → FieldElement → Except String FieldElement
  | .scalarE v1, .scalarE v2 => .ok (ScalarElement (v1 - v2))
  | .shareE i v, .scalarE c => FieldElement.add (ScalarElement (-c)) (.shareE i v)
  | .scalarE _, .shareE _ _ => .error "Implicit scalar - share not defined!"
  | .shareE i1 v1, .shareE i2 v2 =>
      if i1 = i2 then .ok (Share i1 (v1 - v2))
      else .error "assert self.index == other.index"

/-- FieldElement.__mul__: scalar*scalar, scalar*share (either order, via
reorder_elements: result value is scalar.value * share.value), and
share*share which always raises (after asserting equal indices). -/
def FieldElement.mul : FieldElement → FieldElement → Except String FieldElement
  | .scalarE v1, .scalarE v2 => .ok (ScalarElement (v1 * v2))
  | .scalarE c, .shareE i v => .ok (Share i (c * v))
  | .shareE i v, .scalarE c => .ok (Share i (c * v))
  | .shareE i1 _, .shareE i2 _ =>
      if i1 = i2 then .error "Implicit share * share not allowed!"
      else .error "assert self.index == other.index"

/-- Helper for the list comprehension `[Share(i, s) for i, s in enumerate(vals)]`,
with an explicit starting counter. -/
def shares_from : List Int → Int → List FieldElement
  | [], _ => []
  | v :: rest, i => Share i v :: shares_from rest (i + 1)

/-- share_secret(secret, num_shares): num_shares - 1 random draws (here the
explicit list rand, each drawn by rand_Zq), plus the prepended share
(secret - sum) mod Q, wrapped into Shares with indices 0, 1, .... -/
def share_secret (secret : Int) (num_shares : Nat) (rand : List Int) : List FieldElement :=
  let share_values := rand.take (num_shares - 1)
  shares_from (((secret - share_values.sum) % default_q) :: share_values) 0

/-- reconstruct_secret: sum of the share values mod Q. -/
def reconstruct_secret (shares : List FieldElement) : Int :=
  (shares.map FieldElement.value).sum % default_q

/-- Index-wise combination of two share lists with a field operation,
mirroring the per-index loops of the test suite
(`result.append(shares1[i] op shares2[i])`). -/
def combine_shares (op : FieldElement → FieldElement → Except String FieldElement) :
    List FieldElement → List FieldElement → Except String (List FieldElement)
  | [], [] => .ok []
  | x :: xs, y :: ys => do
      let r ← op x y
      let rest ← combine_shares op xs ys
      .ok (r :: rest)
  | _, _ => .error "length mismatch"

/-- Adding the same ScalarElement(k) to every share of a list, mirroring the
loop `result.append(shares1[i] + ScalarElement(s2))` of the test suite. -/
def map_add_scalar (k : Int) : List FieldElement → Except String (List FieldElement)
  | [] => .ok []
  | x :: xs => do
      let r ← FieldElement.add x (ScalarElement k)
      let rest ← map_add_scalar k xs
      .ok (r :: rest)

/-- Decimal digit byte codes (ASCII) of a natural number, as produced by
the Python f-string conversion of a nonnegative int. -/
def natRepr (n : Nat) : List Nat :=
  if h : n < 10 then [48 + n]
  else natRepr (n / 10) ++ [48 + n % 10]
termination_by n
decreasing_by omega

/-- Byte codes of the Python str() of an int: optional minus sign (45)
followed by the decimal digits of the absolute value. -/
def intRepr (i : Int) : List Nat :=
  if i < 0 then 45 :: natRepr i.natAbs else natRepr i.natAbs

/-- serialize_share: the UTF-8 bytes of the f-string index|value
(124 is the bar character). -/
def serialize_share (sh : FieldElement) : List Nat :=
  intRepr sh.index ++ 124 :: intRepr sh.value

/-- Python str.split on the bar character, over byte lists
(b.decode then split of unserialize_share). -/
def split_bar : List Nat → List (List Nat)
  | [] => [[]]
  | c :: rest =>
      if c = 124 then [] :: split_bar rest
      else
        match split_bar rest with
        | [] => [[c]]
        | f :: fs => (c :: f) :: fs

/-- Python int() on decimal digit byte codes, digits only. -/
def parseNat (l : List Nat) : Nat :=
  l.foldl (fun acc d => acc * 10 + (d - 48)) 0

/-- Python int() on decimal digit byte codes with an optional leading
minus sign. -/
def parseInt (l : List Nat) : Int :=
  if l.head? = some 45 then -(parseNat l.tail : Int) else (parseNat l : Int)

/-- unserialize_share: split the byte string on the bar and rebuild
Share(int(fields[0]), int(fields[1])); fewer than two fields is the
Python IndexError. -/
def unserialize_share (b : List Nat) : Except String FieldElement :=
  match split_bar b with
  | f0 :: f1 :: _ => .ok (Share (parseInt f0) (parseInt f1))
  | _ => .error "IndexError"

/-- BeaverDistributor.retrieve_triplet_shares: wrap the three values
returned by the triplet retriever into Shares at the participant index. -/
def retrieve_triplet_shares (participant_index : Int) (tr : Int × Int × Int) :
    FieldElement × FieldElement × FieldElement :=
  (Share participant_index tr.1, Share participant_index tr.2.1,
    Share participant_index tr.2.2)

/-- BeaverDistributor.execute_start: the triplet retriever's reply is the
explicit argument tr; the published blinded shares X = x - a and Y = y - b
are returned alongside the intermediate state (c, x, y). The source asserts
that x, y and the triplet shares all carry one index. -/
def execute_start (tr : Int × Int × Int) (x y : FieldElement) :
    Except String ((FieldElement × FieldElement × FieldElement)
      × FieldElement × FieldElement) :=
  match x, y with
  | .shareE xi xv, .shareE yi yv =>
      if xi = yi then do
        let abc := retrieve_triplet_shares xi tr
        let X ← FieldElement.sub (.shareE xi xv) abc.1
        let Y ← FieldElement.sub (.shareE yi yv) abc.2.1
        .ok ((abc.2.2, .shareE xi xv, .shareE yi yv), X, Y)
      else .error "assert x.index == y.index"
  | _, _ => .error "assert x.index == y.index"

/-- BeaverDistributor.receive_blinded_values: reconstruct the public X and
Y from every party's published blinded shares. -/
def receive_blinded_values (Xshares Yshares : List FieldElement) :
    FieldElement × FieldElement :=
  (ScalarElement (reconstruct_secret Xshares),
    ScalarElement (reconstruct_secret Yshares))

/-- BeaverDistributor.execute_end: z = c + x * Y + y * X - X * Y. -/
def execute_end (state : FieldElement × FieldElement × FieldElement)
    (Xshares Yshares : List FieldElement) : Except String FieldElement := do
  let XY := receive_blinded_values Xshares Yshares
  let t1 ← FieldElement.mul state.2.1 XY.2
  let s1 ← FieldElement.add state.1 t1
  let t2 ← FieldElement.mul state.2.2 XY.1
  let s2 ← FieldElement.add s1 t2
  let p ← FieldElement.mul XY.1 XY.2
  FieldElement.sub s2 p

/-- Phase one across all simulated parties: party i runs execute_start on
its x- and y-share with its triplet values (the loop
collecting beaver_states in the test suite). -/
def run_starts : List (Int × Int × Int) → List FieldElement → List FieldElement →
    Except String (List ((FieldElement × FieldElement × FieldElement)
      × FieldElement × FieldElement))
  | [], [], [] => .ok []
  | t :: ts, x :: xs, y :: ys => do
      let s ← execute_start t x y
      let rest ← run_starts ts xs ys
      .ok (s :: rest)
  | _, _, _ => .error "length mismatch"

/-- Phase two across all parties: each runs execute_end on its saved state,
reading all published blinded shares. -/
def run_ends (Xshares Yshares : List FieldElement) :
    List ((FieldElement × FieldElement × FieldElement)
      × FieldElement × FieldElement) →
    Except String (List FieldElement)
  | [] => .ok []
  | s :: rest => do
      let z ← execute_end s.1 Xshares Yshares
      let zs ← run_ends Xshares Yshares rest
      .ok (z :: zs)

/-- The full two-phase Beaver protocol over n simulated parties, mirroring
test_secret_sharing_beaver_multiplication: run every start phase, collect
the published blinded shares, then run every end phase. -/
def beaver_protocol (trips : List (Int × Int × Int))
    (xs ys : List FieldElement) : Except String (List FieldElement) := do
  let states ← run_starts trips xs ys
  let Xshares := states.map (fun s => s.2.1)
  let Yshares := states.map (fun s => s.2.2)
  run_ends Xshares Yshares states

/-- The per-party data produced by the start phase on share lists built by
shares_from: state (c, x, y) plus the published X and Y blinded shares. -/
def expected_states : List Int → List Int → List Int → List Int → List Int → Int
    → List ((FieldElement × FieldElement × FieldElement)
      × FieldElement × FieldElement)
  | ta :: tas, tb :: tbs, tc :: tcs, xv :: xvs, yv :: yvs, k =>
      ((Share k tc, Share k xv, Share k yv),
        Share k (xv % default_q - ta % default_q),
        Share k (yv % default_q - tb % default_q))
      :: expected_states tas tbs tcs xvs yvs (k + 1)
  | _, _, _, _, _, _ => []

/-- The state of the TrustedParamGenerator of ttp.py: the registered
participant ids in registration order and the dict of generated share
vectors keyed by operation id (modelled as an association list with the
newest entry first, matching dict insert-if-absent use). -/
structure TrustedParamGenerator where
  participant_ids : List String
  generated_shares :
    List (String × (List FieldElement × List FieldElement × List FieldElement))

/-- TrustedParamGenerator.add_participant: append to the registration
order. -/
def add_participant (g : TrustedParamGenerator) (participant_id : String) :
    TrustedParamGenerator :=
  { g with participant_ids := g.participant_ids ++ [participant_id] }

/-- The random draws a fresh triplet generation consumes: rand_Zq for a and
b, plus the rand_Zq draws inside the three share_secret calls. -/
structure TripletRand where
  a : Int
  b : Int
  ra : List Int
  rb : List Int
  rc : List Int

/-- TrustedParamGenerator.retrieve_share: assert registration, lazily
generate and cache the triplet share vectors for op_id (c = a*b mod Q,
each secret shared over len(participant_ids) shares), then return the
three shares at the caller's position in registration order. -/
def retrieve_share (g : TrustedParamGenerator) (client_id op_id : String)
    (rnd : TripletRand) :
    Except String ((FieldElement × FieldElement × FieldElement)
      × TrustedParamGenerator) :=
  if client_id ∈ g.participant_ids then
    let g' :=
      if (g.generated_shares.lookup op_id).isSome then g
      else
        let s_c := rnd.a * rnd.b % default_q
        let a_shares := share_secret rnd.a g.participant_ids.length rnd.ra
        let b_shares := share_secret rnd.b g.participant_ids.length rnd.rb
        let c_shares := share_secret s_c g.participant_ids.length rnd.rc
        { g with generated_shares :=
            (op_id, (a_shares, b_shares, c_shares)) :: g.generated_shares }
    match g'.generated_shares.lookup op_id with
    | none => .error "assert shares is not None"
    | some shares =>
      let i := g'.participant_ids.indexOf client_id
      match shares.1[i]?, shares.2.1[i]?, shares.2.2[i]? with
      | some sa, some sb, some sc => .ok ((sa, sb, sc), g')
      | _, _, _ => .error "IndexError"
  else .error "assert client_id in self.participant_ids"

/-- One gen_id draw: ID_BYTES = 4 bytes, each produced by
random.getrandbits(8). -/
structure IdBytes where
  b0 : Nat
  b1 : Nat
  b2 : Nat
  b3 : Nat
deriving DecidableEq, Repr

/-- A draw is valid when each byte is an 8-bit value, which is what
getrandbits(8) returns. -/
def IdBytes.valid (d : IdBytes) : Prop :=
  d.b0 < 256 ∧ d.b1 < 256 ∧ d.b2 < 256 ∧ d.b3 < 256

/-- The standard base64 alphabet of base64.b64encode, as ASCII codes. -/
def b64char (n : Nat) : Nat :=
  if n < 26 then 65 + n
  else if n < 52 then 97 + (n - 26)
  else if n < 62 then 48 + (n - 52)
  else if n = 62 then 43
  else 47

/-- gen_id: base64.b64encode of the 4 random bytes. One full 3-byte group
yields 4 sextet characters; the 1-byte remainder yields 2 characters and
two pad characters (61 is the ASCII code of the pad). -/
def gen_id (d : IdBytes) : List Nat :=
  [b64char ((d.b0 * 65536 + d.b1 * 256 + d.b2) / 262144),
    b64char ((d.b0 * 65536 + d.b1 * 256 + d.b2) / 4096 % 64),
    b64char ((d.b0 * 65536 + d.b1 * 256 + d.b2) / 64 % 64),
    b64char ((d.b0 * 65536 + d.b1 * 256 + d.b2) % 64),
    b64char (d.b3 / 4), b64char (d.b3 % 4 * 16), 61, 61]

/-- The shape of an expression tree, before identifiers are assigned. -/
inductive ExprShape where
  | secretS : ExprShape
  | scalarS (v : Int) : ExprShape
  | addS (l r : ExprShape) : ExprShape
  | subS (l r : ExprShape) : ExprShape
  | mulS (l r : ExprShape) : ExprShape

/-- An expression tree of expression.py: Secret and Scalar leaves and
AddOp, SubOp, MulOp nodes, every node carrying its id bytes. -/
inductive Expr where
  | secret (id : List Nat) : Expr
  | scalar (v : Int) (id : List Nat) : Expr
  | add (l r : Expr) (id : List Nat) : Expr
  | sub (l r : Expr) (id : List Nat) : Expr
  | mul (l r : Expr) (id : List Nat) : Expr
deriving DecidableEq, Repr

/-- The number of constructor calls needed to build a shape. -/
def ExprShape.size : ExprShape → Nat
  | .secretS => 1
  | .scalarS _ => 1
  | .addS l r => l.size + r.size + 1
  | .subS l r => l.size + r.size + 1
  | .mulS l r => l.size + r.size + 1

/-- Building a tree with auto-generated ids: the j-th constructor call
consumes draw j of the random stream; children are fully constructed
before their parent generates its own id, as in the Python constructors
(super().__init__ runs after the child arguments were built). -/
def build (st : Nat → IdBytes) : ExprShape → Nat → Expr
  | .secretS, k => .secret (gen_id (st k))
  | .scalarS v, k => .scalar v (gen_id (st k))
  | .addS l r, k =>
      .add (build st l k) (build st r (k + l.size))
        (gen_id (st (k + l.size + r.size)))
  | .subS l r, k =>
      .sub (build st l k) (build st r (k + l.size))
        (gen_id (st (k + l.size + r.size)))
  | .mulS l r, k =>
      .mul (build st l k) (build st r (k + l.size))
        (gen_id (st (k + l.size + r.size)))

/-- All node identifiers of a tree, in construction order
(children first, then the parent). -/
def idsOf : Expr → List (List Nat)
  | .secret id => [id]
  | .scalar _ id => [id]
  | .add l r id => idsOf l ++ idsOf r ++ [id]
  | .sub l r id => idsOf l ++ idsOf r ++ [id]
  | .mul l r id => idsOf l ++ idsOf r ++ [id]

/-- SMCParty.process_expression: bottom-up evaluation of the tree.
A Secret leaf deserializes this party's privately received share (recv
yields the wire pair (index, value)); a Scalar leaf becomes a
ScalarElement; Add/Sub combine locally; Mul multiplies locally when either
operand is a Scalar, and otherwise delegates to the Beaver distributor
under the node's id (the communication-dependent step, passed as the
beaver callback). -/
def process_expression (recv : List Nat → Int × Int)
    (beaver : List Nat → FieldElement → FieldElement →
      Except String FieldElement) :
    Expr → Except String FieldElement
  | .secret id => .ok (Share (recv id).1 (recv id).2)
  | .scalar v _ => .ok (ScalarElement v)
  | .add l r _ => do
      let a ← process_expression recv beaver l
      let b ← process_expression recv beaver r
      FieldElement.add a b
  | .sub l r _ => do
      let a ← process_expression recv beaver l
      let b ← process_expression recv beaver r
      FieldElement.sub a b
  | .mul l r id => do
      let a ← process_expression recv beaver l
      let b ← process_expression recv beaver r
      if a.isScalar || b.isScalar then FieldElement.mul a b
      else beaver id a b

/-- SMCParty.run after the distribution step: evaluate the expression,
assert the result is a Share, then publish it and reconstruct from every
party's published result share (the received wire pairs are the
result_shares argument). -/
def run (recv : List Nat → Int × Int)
    (beaver : List Nat → FieldElement → FieldElement →
      Except String FieldElement)
    (result_shares : List (Int × Int)) (expr : Expr) : Except String Int := do
  let result ← process_expression recv beaver expr
  match result with
  | .shareE _ _ =>
      .ok (reconstruct_secret (result_shares.map (fun p => Share p.1 p.2)))
  | .scalarE _ => .error "assert isinstance(result_share, Share)"

/-- Whether an expression is built only from Scalar leaves. -/
def scalar_only : Expr → Bool
  | .secret _ => false
  | .scalar _ _ => true
  | .add l r _ => scalar_only l && scalar_only r
  | .sub l r _ => scalar_only l && scalar_only r
  | .mul l r _ => scalar_only l && scalar_only r

theorem default_q_pos : 0 < default_q := by norm_num [default_q]

theorem emod_cong (a : Int) : Int.ModEq default_q (a % default_q) a :=
  Int.emod_emod_of_dvd a dvd_rfl

theorem shares_from_length (vals : List Int) (k : Int) :
    (shares_from vals k).length = vals.length := by
  induction vals generalizing k with
  | nil => rfl
  | cons v rest ih => simp [shares_from, ih]

theorem shares_from_map_value (vals : List Int) (k : Int) :
    (shares_from vals k).map FieldElement.value
      = vals.map (fun v => v % default_q) := by
  induction vals generalizing k with
  | nil => rfl
  | cons v rest ih => simp [shares_from, Share, FieldElement.value, ih]

theorem shares_from_map_index (vals : List Int) (k : Int) :
    (shares_from vals k).map FieldElement.index
      = (List.range vals.length).map (fun j : Nat => k + (j : Int)) := by
  induction vals generalizing k with
  | nil => rfl
  | cons v rest ih =>
    simp only [shares_from, Share, FieldElement.index, List.map_cons,
      List.length_cons, List.range_succ_eq_map, List.map_map, ih]
    simp only [List.cons.injEq]
    refine ⟨by simp, ?_⟩
    · refine List.map_congr_left ?_
      intro j _
      simp [Function.comp, Nat.succ_eq_add_one]
      ring

theorem sum_map_emod (l : List Int) :
    Int.ModEq default_q ((l.map (fun v => v % default_q)).sum) l.sum := by
  induction l with
  | nil => exact Int.ModEq.refl 0
  | cons v rest ih =>
    simp only [List.map_cons, List.sum_cons]
    exact (emod_cong v).add ih

theorem reconstruct_shares_from (vals : List Int) (k : Int) :
    reconstruct_secret (shares_from vals k) = vals.sum % default_q := by
  unfold reconstruct_secret
  rw [shares_from_map_value]
  exact sum_map_emod vals

theorem reconstruct_share_secret (s : Int) (n : Nat) (rand : List Int) :
    reconstruct_secret (share_secret s n rand) = s % default_q := by
  unfold share_secret
  rw [reconstruct_shares_from]
  simp only [List.sum_cons, default_q]
  omega

/-- C2: share_secret(s, n) returns exactly n Share entries whose indices are
0..n-1 in order, and reconstruct_secret applied to those shares returns s,
for every secret s in [0,Q) and every n at least 2 (rand holds the n-1
uniformly drawn values of rand_Zq). -/
theorem claim_C2_sharing_roundtrip (s : Int) (n : Nat) (rand : List Int)
    (hs0 : 0 ≤ s) (hsq : s < default_q) (hn : 2 ≤ n) (hr : rand.length = n - 1) :
    (share_secret s n rand).length = n ∧
    (share_secret s n rand).map FieldElement.index
      = (List.range n).map (fun j : Nat => (j : Int)) ∧
    reconstruct_secret (share_secret s n rand) = s := by
  have htake : rand.take (n - 1) = rand := by
    rw [← hr]
    exact List.take_length rand
  have hlen : (((s - (rand.take (n - 1)).sum) % default_q) :: rand.take (n - 1)).length
      = n := by
    simp [htake, hr]
    omega
  refine ⟨?_, ?_, ?_⟩
  · unfold share_secret
    rw [shares_from_length, hlen]
  · unfold share_secret
    rw [shares_from_map_index, hlen]
    simp
  · rw [reconstruct_share_secret]
    exact Int.emod_eq_of_lt hs0 hsq

theorem claim_C2_sharing_roundtrip_witness :
    (share_secret 5 2 [3]).length = 2 ∧
    (share_secret 5 2 [3]).map FieldElement.index
      = (List.range 2).map (fun j : Nat => (j : Int)) ∧
    reconstruct_secret (share_secret 5 2 [3]) = 5 :=
  claim_C2_sharing_roundtrip 5 2 [3] (by norm_num) (by norm_num [default_q])
    (by norm_num) (by norm_num)

theorem share_values_sum (s : Int) (l : List Int) :
    Int.ModEq default_q ((((s - l.sum) % default_q) :: l).sum) s := by
  show (((s - l.sum) % default_q) :: l).sum % default_q = s % default_q
  simp only [List.sum_cons, default_q]
  omega

theorem combine_add_shares_from (v1 : List Int) :
    ∀ (v2 : List Int) (k : Int), v1.length = v2.length →
    ∃ zs, combine_shares FieldElement.add (shares_from v1 k) (shares_from v2 k) = .ok zs ∧
      Int.ModEq default_q ((zs.map FieldElement.value).sum) (v1.sum + v2.sum) := by
  induction v1 with
  | nil =>
    intro v2 k h
    cases v2 with
    | nil => exact ⟨[], rfl, by simp⟩
    | cons b bs => simp at h
  | cons a t1 ih =>
    intro v2 k h
    cases v2 with
    | nil => simp at h
    | cons b t2 =>
      simp only [List.length_cons] at h
      obtain ⟨zs, hzs, hsum⟩ := ih t2 (k + 1) (by omega)
      refine ⟨Share k (a % default_q + b % default_q) :: zs, ?_, ?_⟩
      · simp [shares_from, combine_shares, FieldElement.add, Share, hzs]
        rfl
      · simp only [Share, FieldElement.value, List.map_cons, List.sum_cons]
        have hhead : Int.ModEq default_q ((a % default_q + b % default_q) % default_q)
            (a + b) := (emod_cong _).trans ((emod_cong a).add (emod_cong b))
        have htot := hhead.add hsum
        rw [show a + t1.sum + (b + t2.sum) = (a + b) + (t1.sum + t2.sum) by ring]
        exact htot

theorem combine_sub_shares_from (v1 : List Int) :
    ∀ (v2 : List Int) (k : Int), v1.length = v2.length →
    ∃ zs, combine_shares FieldElement.sub (shares_from v1 k) (shares_from v2 k) = .ok zs ∧
      Int.ModEq default_q ((zs.map FieldElement.value).sum) (v1.sum - v2.sum) := by
  induction v1 with
  | nil =>
    intro v2 k h
    cases v2 with
    | nil => exact ⟨[], rfl, by simp⟩
    | cons b bs => simp at h
  | cons a t1 ih =>
    intro v2 k h
    cases v2 with
    | nil => simp at h
    | cons b t2 =>
      simp only [List.length_cons] at h
      obtain ⟨zs, hzs, hsum⟩ := ih t2 (k + 1) (by omega)
      refine ⟨Share k (a % default_q - b % default_q) :: zs, ?_, ?_⟩
      · simp [shares_from, combine_shares, FieldElement.sub, Share, hzs]
        rfl
      · simp only [Share, FieldElement.value, List.map_cons, List.sum_cons]
        have hhead : Int.ModEq default_q ((a % default_q - b % default_q) % default_q)
            (a - b) := (emod_cong _).trans ((emod_cong a).sub (emod_cong b))
        have htot := hhead.add hsum
        rw [show a + t1.sum - (b + t2.sum) = (a - b) + (t1.sum - t2.sum) by ring]
        exact htot

/-- C3: adding (resp. subtracting) the share vectors of share_secret(s1,n)
and share_secret(s2,n) index-wise via Share + Share (resp. Share - Share)
succeeds on every pair (equal indices) and the resulting shares reconstruct
to (s1+s2) mod Q (resp. (s1-s2) mod Q). -/
theorem claim_C3_additive_homomorphism (s1 s2 : Int) (n : Nat) (r1 r2 : List Int)
    (h12 : r1.length = r2.length) :
    (∃ zs, combine_shares FieldElement.add (share_secret s1 n r1) (share_secret s2 n r2)
        = .ok zs ∧ reconstruct_secret zs = (s1 + s2) % default_q) ∧
    (∃ zs, combine_shares FieldElement.sub (share_secret s1 n r1) (share_secret s2 n r2)
        = .ok zs ∧ reconstruct_secret zs = (s1 - s2) % default_q) := by
  have hlen : (((s1 - (r1.take (n - 1)).sum) % default_q) :: r1.take (n - 1)).length
      = (((s2 - (r2.take (n - 1)).sum) % default_q) :: r2.take (n - 1)).length := by
    simp [h12]
  constructor
  · obtain ⟨zs, hzs, hsum⟩ := combine_add_shares_from _ _ 0 hlen
    refine ⟨zs, hzs, ?_⟩
    have h1 := share_values_sum s1 (r1.take (n - 1))
    have h2 := share_values_sum s2 (r2.take (n - 1))
    exact hsum.trans (h1.add h2)
  · obtain ⟨zs, hzs, hsum⟩ := combine_sub_shares_from _ _ 0 hlen
    refine ⟨zs, hzs, ?_⟩
    have h1 := share_values_sum s1 (r1.take (n - 1))
    have h2 := share_values_sum s2 (r2.take (n - 1))
    exact hsum.trans (h1.sub h2)

theorem claim_C3_additive_homomorphism_witness :
    (∃ zs, combine_shares FieldElement.add (share_secret 5 2 [3]) (share_secret 7 2 [9])
        = .ok zs ∧ reconstruct_secret zs = (5 + 7) % default_q) ∧
    (∃ zs, combine_shares FieldElement.sub (share_secret 5 2 [3]) (share_secret 7 2 [9])
        = .ok zs ∧ reconstruct_secret zs = (5 - 7) % default_q) :=
  claim_C3_additive_homomorphism 5 7 2 [3] [9] (by norm_num)

theorem map_add_scalar_nonzero (c : Int) (vals : List Int) :
    ∀ k : Int, 1 ≤ k → map_add_scalar c (shares_from vals k) = .ok (shares_from vals k) := by
  induction vals with
  | nil => intro k hk; rfl
  | cons v rest ih =>
    intro k hk
    have hkne : ¬ (k = 0) := by omega
    simp only [shares_from, map_add_scalar, Share, ScalarElement, FieldElement.add,
      if_neg hkne, ih (k + 1) (by omega)]
    simp [Int.emod_emod_of_dvd]
    rfl

/-- C5: adding the same ScalarElement(k) to every share of share_secret(s,n)
changes only the index-0 share (all later positions are returned unchanged),
the result reconstructs to (s+k) mod Q, and share + scalar equals
scalar + share for every Share and ScalarElement. -/
theorem claim_C5_scalar_distributivity (s k : Int) (n : Nat) (rand : List Int) :
    (∃ zs, map_add_scalar k (share_secret s n rand) = .ok zs ∧
      (∀ j : Nat, j ≠ 0 → zs[j]? = (share_secret s n rand)[j]?) ∧
      reconstruct_secret zs = (s + k) % default_q) ∧
    (∀ i v c : Int, FieldElement.add (.shareE i v) (.scalarE c)
        = FieldElement.add (.scalarE c) (.shareE i v)) := by
  constructor
  · have hexp : share_secret s n rand
        = Share 0 ((s - (rand.take (n - 1)).sum) % default_q)
            :: shares_from (rand.take (n - 1)) 1 := rfl
    set t := rand.take (n - 1) with ht
    set v0 := (s - t.sum) % default_q with hv0
    have hhead : FieldElement.add (Share 0 v0) (ScalarElement k)
        = .ok (Share 0 (v0 % default_q + k % default_q)) := by
      simp [Share, ScalarElement, FieldElement.add]
    refine ⟨Share 0 (v0 % default_q + k % default_q) :: shares_from t 1, ?_, ?_, ?_⟩
    · rw [hexp]
      simp only [map_add_scalar, hhead, map_add_scalar_nonzero k t 1 le_rfl]
      rfl
    · intro j hj
      rw [hexp]
      cases j with
      | zero => exact absurd rfl hj
      | succ j => simp
    · unfold reconstruct_secret
      simp only [List.map_cons, List.sum_cons, shares_from_map_value, Share,
        FieldElement.value]
      have hhd : Int.ModEq default_q ((v0 % default_q + k % default_q) % default_q)
          ((s - t.sum) + k) := by
        refine (emod_cong _).trans ?_
        exact (((emod_cong v0).trans (emod_cong (s - t.sum))).add (emod_cong k))
      have htl := sum_map_emod t
      have htot := hhd.add htl
      rw [show s + k = ((s - t.sum) + k) + t.sum by ring]
      exact htot
  · intro i v c
    rfl

theorem claim_C5_scalar_distributivity_witness :
    (∃ zs, map_add_scalar 4 (share_secret 5 2 [3]) = .ok zs ∧
      (∀ j : Nat, j ≠ 0 → zs[j]? = (share_secret 5 2 [3])[j]?) ∧
      reconstruct_secret zs = (5 + 4) % default_q) ∧
    (∀ i v c : Int, FieldElement.add (.shareE i v) (.scalarE c)
        = FieldElement.add (.scalarE c) (.shareE i v)) :=
  claim_C5_scalar_distributivity 5 4 2 [3]

/-- C6: Share plus/minus Share with unequal indices fails; Scalar - Share
fails with the usage error; Share - Scalar succeeds and delegates to
(-Scalar) + Share; Share * Share always fails without producing a value. -/
theorem claim_C6_disallowed_combinations :
    (∀ i1 v1 i2 v2 : Int, i1 ≠ i2 →
      FieldElement.sub (.shareE i1 v1) (.shareE i2 v2)
          = .error "assert self.index == other.index" ∧
      FieldElement.add (.shareE i1 v1) (.shareE i2 v2)
          = .error "assert self.index == other.index") ∧
    (∀ c i v : Int, FieldElement.sub (.scalarE c) (.shareE i v)
        = .error "Implicit scalar - share not defined!") ∧
    (∀ i v c : Int, FieldElement.sub (.shareE i v) (.scalarE c)
        = FieldElement.add (ScalarElement (-c)) (.shareE i v) ∧
      ∃ r, FieldElement.sub (.shareE i v) (.scalarE c) = .ok r) ∧
    (∀ i1 v1 i2 v2 : Int, ∃ msg,
      FieldElement.mul (.shareE i1 v1) (.shareE i2 v2) = .error msg) := by
  refine ⟨?_, ?_, ?_, ?_⟩
  · intro i1 v1 i2 v2 h
    constructor
    · simp [FieldElement.sub, if_neg h]
    · simp [FieldElement.add, if_neg h]
  · intro c i v
    rfl
  · intro i v c
    constructor
    · rfl
    · by_cases hi : i = 0
      · exact ⟨Share i (v + (-c) % default_q), by simp [FieldElement.sub,
          FieldElement.add, ScalarElement, hi]⟩
      · exact ⟨Share i v, by simp [FieldElement.sub, FieldElement.add,
          ScalarElement, hi]⟩
  · intro i1 v1 i2 v2
    by_cases h : i1 = i2
    · exact ⟨"Implicit share * share not allowed!", by simp [FieldElement.mul, h]⟩
    · exact ⟨"assert self.index == other.index", by simp [FieldElement.mul, h]⟩

theorem claim_C6_disallowed_combinations_witness :
    FieldElement.sub (.shareE 0 1) (.shareE 1 2)
        = .error "assert self.index == other.index" :=
  (claim_C6_disallowed_combinations.1 0 1 1 2 (by decide)).1

/-- C7: every FieldElement produced by a constructor (ScalarElement, Share)
or returned successfully by add, sub or mul stores a value in [0, Q),
whatever the integer inputs were. -/
theorem claim_C7_range_invariant :
    (∀ v : Int, 0 ≤ (ScalarElement v).value ∧ (ScalarElement v).value < default_q) ∧
    (∀ i v : Int, 0 ≤ (Share i v).value ∧ (Share i v).value < default_q) ∧
    (∀ x y r : FieldElement, FieldElement.add x y = .ok r →
        0 ≤ r.value ∧ r.value < default_q) ∧
    (∀ x y r : FieldElement, FieldElement.sub x y = .ok r →
        0 ≤ r.value ∧ r.value < default_q) ∧
    (∀ x y r : FieldElement, FieldElement.mul x y = .ok r →
        0 ≤ r.value ∧ r.value < default_q) := by
  have hrange : ∀ a : Int, 0 ≤ a % default_q ∧ a % default_q < default_q :=
    fun a => ⟨Int.emod_nonneg a (by norm_num [default_q]),
      Int.emod_lt_of_pos a default_q_pos⟩
  have hadd : ∀ x y r : FieldElement, FieldElement.add x y = .ok r →
      0 ≤ r.value ∧ r.value < default_q := by
    intro x y r h
    cases x <;> cases y <;>
      simp only [FieldElement.add, ScalarElement, Share] at h
    case scalarE.scalarE => cases h; exact hrange _
    case scalarE.shareE c i v =>
      split_ifs at h <;> (cases h; exact hrange _)
    case shareE.scalarE i v c =>
      split_ifs at h <;> (cases h; exact hrange _)
    case shareE.shareE i1 v1 i2 v2 =>
      split_ifs at h
      cases h; exact hrange _
  refine ⟨fun v => hrange v, fun i v => hrange v, hadd, ?_, ?_⟩
  · intro x y r h
    cases x <;> cases y
    case scalarE.scalarE c1 c2 =>
      simp only [FieldElement.sub, ScalarElement] at h
      cases h; exact hrange _
    case scalarE.shareE c i v =>
      simp [FieldElement.sub] at h
    case shareE.scalarE i v c =>
      simp only [FieldElement.sub] at h
      exact hadd _ _ _ h
    case shareE.shareE i1 v1 i2 v2 =>
      simp only [FieldElement.sub, Share] at h
      split_ifs at h
      cases h; exact hrange _
  · intro x y r h
    cases x <;> cases y
    case scalarE.scalarE c1 c2 =>
      simp only [FieldElement.mul, ScalarElement] at h
      cases h; exact hrange _
    case scalarE.shareE c i v =>
      simp only [FieldElement.mul, Share] at h
      cases h; exact hrange _
    case shareE.scalarE i v c =>
      simp only [FieldElement.mul, Share] at h
      cases h; exact hrange _
    case shareE.shareE i1 v1 i2 v2 =>
      simp only [FieldElement.mul] at h
      split_ifs at h

theorem claim_C7_range_invariant_witness :
    0 ≤ (FieldElement.scalarE 3).value ∧ (FieldElement.scalarE 3).value < default_q :=
  claim_C7_range_invariant.2.2.1 (.scalarE 1) (.scalarE 2) (.scalarE 3) (by rfl)

theorem natRepr_digit_range : ∀ n : Nat, ∀ d ∈ natRepr n, 48 ≤ d ∧ d ≤ 57 := by
  intro n
  induction n using Nat.strong_induction_on with
  | _ n ih =>
    intro d hd
    rw [natRepr] at hd
    split_ifs at hd with h
    · simp at hd
      omega
    · simp only [List.mem_append, List.mem_singleton] at hd
      rcases hd with hd | hd
      · exact ih (n / 10) (by omega) d hd
      · omega

theorem parseNat_natRepr : ∀ n : Nat, parseNat (natRepr n) = n := by
  intro n
  induction n using Nat.strong_induction_on with
  | _ n ih =>
    rw [natRepr]
    split_ifs with h
    · simp [parseNat]
    · rw [show parseNat (natRepr (n / 10) ++ [48 + n % 10])
          = parseNat (natRepr (n / 10)) * 10 + ((48 + n % 10) - 48) by
        simp [parseNat, List.foldl_append]]
      rw [ih (n / 10) (by omega)]
      omega

theorem natRepr_ne_nil (n : Nat) : natRepr n ≠ [] := by
  rw [natRepr]
  split_ifs with h <;> simp

theorem parseInt_of_digits (l : List Nat) (h : ∀ d ∈ l, 48 ≤ d ∧ d ≤ 57) :
    parseInt l = (parseNat l : Int) := by
  cases l with
  | nil => rfl
  | cons d rest =>
    have hd : 48 ≤ d ∧ d ≤ 57 := h d (by simp)
    have hne : ¬ ((d :: rest).head? = some 45) := by
      simp
      omega
    rw [parseInt, if_neg hne]

theorem parseInt_intRepr (i : Int) : parseInt (intRepr i) = i := by
  unfold intRepr
  split_ifs with h
  · simp [parseInt, parseNat_natRepr]
    rw [abs_of_neg h]
    ring
  · rw [parseInt_of_digits _ (natRepr_digit_range i.natAbs), parseNat_natRepr]
    omega

theorem intRepr_no_bar (i : Int) : ∀ d ∈ intRepr i, d ≠ 124 := by
  intro d hd
  unfold intRepr at hd
  split_ifs at hd with h
  · rcases List.mem_cons.mp hd with hd | hd
    · omega
    · have := natRepr_digit_range i.natAbs d hd
      omega
  · have := natRepr_digit_range i.natAbs d hd
    omega

theorem split_bar_no_bar (xs : List Nat) (h : ∀ d ∈ xs, d ≠ 124) :
    split_bar xs = [xs] := by
  induction xs with
  | nil => rfl
  | cons c rest ih =>
    have hc : c ≠ 124 := h c (by simp)
    rw [split_bar, if_neg hc, ih (fun d hd => h d (by simp [hd]))]

theorem split_bar_append (xs ys : List Nat) (h : ∀ d ∈ xs, d ≠ 124) :
    split_bar (xs ++ 124 :: ys) = xs :: split_bar ys := by
  induction xs with
  | nil => simp [split_bar]
  | cons c rest ih =>
    have hc : c ≠ 124 := h c (by simp)
    rw [List.cons_append, split_bar, if_neg hc,
      ih (fun d hd => h d (by simp [hd]))]

/-- C9: deserializing the serialized byte representation of a Share with
integer index and value in [0, Q) yields a Share with exactly the same
index and value. -/
theorem claim_C9_wire_roundtrip (i v : Int) (h0 : 0 ≤ v) (hq : v < default_q) :
    unserialize_share (serialize_share (.shareE i v)) = .ok (.shareE i v) := by
  unfold serialize_share unserialize_share
  simp only [FieldElement.index, FieldElement.value]
  rw [split_bar_append _ _ (intRepr_no_bar i),
    split_bar_no_bar _ (intRepr_no_bar v)]
  show Except.ok (Share (parseInt (intRepr i)) (parseInt (intRepr v))) = _
  rw [parseInt_intRepr, parseInt_intRepr]
  unfold Share
  rw [Int.emod_eq_of_lt h0 hq]

theorem claim_C9_wire_roundtrip_witness :
    unserialize_share (serialize_share (.shareE (-1) 5)) = .ok (.shareE (-1) 5) :=
  claim_C9_wire_roundtrip (-1) 5 (by norm_num) (by norm_num [default_q])

theorem execute_start_char (ta tb tc xv yv k : Int) :
    execute_start (ta, tb, tc) (Share k xv) (Share k yv)
      = .ok ((Share k tc, Share k xv, Share k yv),
          Share k (xv % default_q - ta % default_q),
          Share k (yv % default_q - tb % default_q)) := by
  simp [execute_start, retrieve_triplet_shares, Share, FieldElement.sub]
  rfl

theorem run_starts_ok (ta : List Int) :
    ∀ (tb tc vx vy : List Int) (k : Int),
    ta.length = tb.length → ta.length = tc.length → ta.length = vx.length →
    ta.length = vy.length →
    run_starts (ta.zip (tb.zip tc)) (shares_from vx k) (shares_from vy k)
      = .ok (expected_states ta tb tc vx vy k) := by
  induction ta with
  | nil =>
    intro tb tc vx vy k h1 h2 h3 h4
    obtain rfl := List.length_eq_zero.mp h1.symm
    obtain rfl := List.length_eq_zero.mp h2.symm
    obtain rfl := List.length_eq_zero.mp h3.symm
    obtain rfl := List.length_eq_zero.mp h4.symm
    rfl
  | cons a tas ih =>
    intro tb tc vx vy k h1 h2 h3 h4
    cases tb with
    | nil => simp at h1
    | cons b tbs =>
      cases tc with
      | nil => simp at h2
      | cons c tcs =>
        cases vx with
        | nil => simp at h3
        | cons xv xvs =>
          cases vy with
          | nil => simp at h4
          | cons yv yvs =>
            simp only [List.length_cons] at h1 h2 h3 h4
            have ih' := ih tbs tcs xvs yvs (k + 1) (by omega) (by omega)
              (by omega) (by omega)
            have hbind : ∀ {α β : Type} (a : α) (f : α → Except String β),
                (Except.ok a >>= f) = f a := fun a f => rfl
            simp only [List.zip] at ih'
            simp only [List.zip, List.zipWith_cons_cons, shares_from, run_starts,
              execute_start_char, expected_states, hbind, ih']

theorem expected_X_sum (ta : List Int) :
    ∀ (tb tc vx vy : List Int) (k : Int),
    ta.length = tb.length → ta.length = tc.length → ta.length = vx.length →
    ta.length = vy.length →
    Int.ModEq default_q
      ((((expected_states ta tb tc vx vy k).map (fun s => s.2.1)).map
          FieldElement.value).sum)
      (vx.sum - ta.sum) := by
  induction ta with
  | nil =>
    intro tb tc vx vy k h1 h2 h3 h4
    obtain rfl := List.length_eq_zero.mp h3.symm
    simp [expected_states]
  | cons a tas ih =>
    intro tb tc vx vy k h1 h2 h3 h4
    cases tb with
    | nil => simp at h1
    | cons b tbs =>
      cases tc with
      | nil => simp at h2
      | cons c tcs =>
        cases vx with
        | nil => simp at h3
        | cons xv xvs =>
          cases vy with
          | nil => simp at h4
          | cons yv yvs =>
            simp only [List.length_cons] at h1 h2 h3 h4
            simp only [expected_states, List.map_cons, List.sum_cons, Share,
              FieldElement.value]
            have hhead : Int.ModEq default_q
                ((xv % default_q - a % default_q) % default_q) (xv - a) :=
              (emod_cong _).trans ((emod_cong xv).sub (emod_cong a))
            have htot := hhead.add
              (ih tbs tcs xvs yvs (k + 1) (by omega) (by omega) (by omega) (by omega))
            rw [show xv + xvs.sum - (a + tas.sum)
                = (xv - a) + (xvs.sum - tas.sum) by ring]
            exact htot

theorem expected_Y_sum (ta : List Int) :
    ∀ (tb tc vx vy : List Int) (k : Int),
    ta.length = tb.length → ta.length = tc.length → ta.length = vx.length →
    ta.length = vy.length →
    Int.ModEq default_q
      ((((expected_states ta tb tc vx vy k).map (fun s => s.2.2)).map
          FieldElement.value).sum)
      (vy.sum - tb.sum) := by
  induction ta with
  | nil =>
    intro tb tc vx vy k h1 h2 h3 h4
    obtain rfl := List.length_eq_zero.mp h1.symm
    obtain rfl := List.length_eq_zero.mp h4.symm
    simp [expected_states]
  | cons a tas ih =>
    intro tb tc vx vy k h1 h2 h3 h4
    cases tb with
    | nil => simp at h1
    | cons b tbs =>
      cases tc with
      | nil => simp at h2
      | cons c tcs =>
        cases vx with
        | nil => simp at h3
        | cons xv xvs =>
          cases vy with
          | nil => simp at h4
          | cons yv yvs =>
            simp only [List.length_cons] at h1 h2 h3 h4
            simp only [expected_states, List.map_cons, List.sum_cons, Share,
              FieldElement.value]
            have hhead : Int.ModEq default_q
                ((yv % default_q - b % default_q) % default_q) (yv - b) :=
              (emod_cong _).trans ((emod_cong yv).sub (emod_cong b))
            have htot := hhead.add
              (ih tbs tcs xvs yvs (k + 1) (by omega) (by omega) (by omega) (by omega))
            rw [show yv + yvs.sum - (b + tbs.sum)
                = (yv - b) + (yvs.sum - tbs.sum) by ring]
            exact htot

theorem execute_end_char (k c xv yv : Int) (Xsh Ysh : List FieldElement) :
    ∃ zv, execute_end (Share k c, Share k xv, Share k yv) Xsh Ysh
        = .ok (.shareE k zv) ∧
      Int.ModEq default_q zv
        (c + reconstruct_secret Ysh * xv + reconstruct_secret Xsh * yv
          - (if k = 0 then reconstruct_secret Xsh * reconstruct_secret Ysh else 0)) := by
  have h1 : Int.ModEq default_q
      ((reconstruct_secret Ysh % default_q * (xv % default_q)) % default_q)
      (reconstruct_secret Ysh * xv) :=
    (emod_cong _).trans ((emod_cong _).mul (emod_cong xv))
  have h2 : Int.ModEq default_q
      ((c % default_q
        + (reconstruct_secret Ysh % default_q * (xv % default_q)) % default_q)
          % default_q)
      (c + reconstruct_secret Ysh * xv) :=
    (emod_cong _).trans ((emod_cong c).add h1)
  have h3 : Int.ModEq default_q
      ((reconstruct_secret Xsh % default_q * (yv % default_q)) % default_q)
      (reconstruct_secret Xsh * yv) :=
    (emod_cong _).trans ((emod_cong _).mul (emod_cong yv))
  have h4 : Int.ModEq default_q
      (((c % default_q
        + (reconstruct_secret Ysh % default_q * (xv % default_q)) % default_q)
          % default_q
        + (reconstruct_secret Xsh % default_q * (yv % default_q)) % default_q)
          % default_q)
      (c + reconstruct_secret Ysh * xv + reconstruct_secret Xsh * yv) :=
    (emod_cong _).trans (h2.add h3)
  by_cases hk : k = 0
  · subst hk
    refine ⟨(((c % default_q
        + (reconstruct_secret Ysh % default_q * (xv % default_q)) % default_q)
          % default_q
        + (reconstruct_secret Xsh % default_q * (yv % default_q)) % default_q)
          % default_q
        + (-((reconstruct_secret Xsh % default_q
              * (reconstruct_secret Ysh % default_q)) % default_q)) % default_q)
          % default_q, rfl, ?_⟩
    have h5 : Int.ModEq default_q
        ((-((reconstruct_secret Xsh % default_q
            * (reconstruct_secret Ysh % default_q)) % default_q)) % default_q)
        (-(reconstruct_secret Xsh * reconstruct_secret Ysh)) :=
      (emod_cong _).trans
        (((emod_cong _).trans ((emod_cong _).mul (emod_cong _))).neg)
    have h6 := (emod_cong _).trans (h4.add h5)
    rw [if_pos rfl, sub_eq_add_neg]
    exact h6
  · refine ⟨((((c % default_q
        + (reconstruct_secret Ysh % default_q * (xv % default_q)) % default_q)
          % default_q
        + (reconstruct_secret Xsh % default_q * (yv % default_q)) % default_q)
          % default_q) % default_q), ?_, ?_⟩
    · have hbind : ∀ {α β : Type} (a : α) (f : α → Except String β),
          (Except.ok a >>= f) = f a := fun a f => rfl
      have hmul : ∀ v cc : Int, FieldElement.mul (.shareE k v) (.scalarE cc)
          = .ok (.shareE k ((cc * v) % default_q)) := fun v cc => rfl
      have hmulss : ∀ a b : Int, FieldElement.mul (.scalarE a) (.scalarE b)
          = .ok (.scalarE ((a * b) % default_q)) := fun a b => rfl
      have hadd : ∀ v w : Int, FieldElement.add (.shareE k v) (.shareE k w)
          = .ok (.shareE k ((v + w) % default_q)) := by
        intro v w
        simp [FieldElement.add, Share]
      have hsub : ∀ v cc : Int, FieldElement.sub (.shareE k v) (.scalarE cc)
          = .ok (.shareE k (v % default_q)) := by
        intro v cc
        simp [FieldElement.sub, FieldElement.add, ScalarElement, Share, if_neg hk]
      simp only [execute_end, receive_blinded_values, ScalarElement, Share,
        hmul, hmulss, hadd, hsub, hbind]
    · rw [if_neg hk, sub_zero]
      exact (emod_cong _).trans h4

theorem run_ends_sum_tail (ta : List Int) :
    ∀ (tb tc vx vy : List Int) (k : Int) (Xsh Ysh : List FieldElement), 1 ≤ k →
    ta.length = tb.length → ta.length = tc.length → ta.length = vx.length →
    ta.length = vy.length →
    ∃ zs, run_ends Xsh Ysh (expected_states ta tb tc vx vy k) = .ok zs ∧
      Int.ModEq default_q ((zs.map FieldElement.value).sum)
        (tc.sum + reconstruct_secret Ysh * vx.sum
          + reconstruct_secret Xsh * vy.sum) := by
  induction ta with
  | nil =>
    intro tb tc vx vy k Xsh Ysh hk h1 h2 h3 h4
    obtain rfl := List.length_eq_zero.mp h2.symm
    obtain rfl := List.length_eq_zero.mp h3.symm
    obtain rfl := List.length_eq_zero.mp h4.symm
    exact ⟨[], rfl, by simp⟩
  | cons a tas ih =>
    intro tb tc vx vy k Xsh Ysh hk h1 h2 h3 h4
    cases tb with
    | nil => simp at h1
    | cons b tbs =>
      cases tc with
      | nil => simp at h2
      | cons c tcs =>
        cases vx with
        | nil => simp at h3
        | cons xv xvs =>
          cases vy with
          | nil => simp at h4
          | cons yv yvs =>
            simp only [List.length_cons] at h1 h2 h3 h4
            obtain ⟨zv, hz, hcong⟩ := execute_end_char k c xv yv Xsh Ysh
            rw [if_neg (show ¬ k = 0 by omega), sub_zero] at hcong
            obtain ⟨zs, hzs, hsum⟩ := ih tbs tcs xvs yvs (k + 1) Xsh Ysh
              (by omega) (by omega) (by omega) (by omega) (by omega)
            have hbind : ∀ {α β : Type} (a : α) (f : α → Except String β),
                (Except.ok a >>= f) = f a := fun a f => rfl
            refine ⟨.shareE k zv :: zs, ?_, ?_⟩
            · simp only [expected_states, run_ends, hz, hzs, hbind]
            · simp only [List.map_cons, List.sum_cons, FieldElement.value]
              have htot := hcong.add hsum
              rw [show c + tcs.sum + reconstruct_secret Ysh * (xv + xvs.sum)
                    + reconstruct_secret Xsh * (yv + yvs.sum)
                  = (c + reconstruct_secret Ysh * xv + reconstruct_secret Xsh * yv)
                    + (tcs.sum + reconstruct_secret Ysh * xvs.sum
                      + reconstruct_secret Xsh * yvs.sum) by ring]
              exact htot

theorem run_ends_sum_all (ta0 tb0 tc0 xv0 yv0 : Int)
    (tas tbs tcs xvs yvs : List Int) (Xsh Ysh : List FieldElement)
    (h1 : tas.length = tbs.length) (h2 : tas.length = tcs.length)
    (h3 : tas.length = xvs.length) (h4 : tas.length = yvs.length) :
    ∃ zs, run_ends Xsh Ysh
        (expected_states (ta0 :: tas) (tb0 :: tbs) (tc0 :: tcs)
          (xv0 :: xvs) (yv0 :: yvs) 0) = .ok zs ∧
      Int.ModEq default_q ((zs.map FieldElement.value).sum)
        ((tc0 :: tcs).sum + reconstruct_secret Ysh * (xv0 :: xvs).sum
          + reconstruct_secret Xsh * (yv0 :: yvs).sum
          - reconstruct_secret Xsh * reconstruct_secret Ysh) := by
  obtain ⟨zv, hz, hcong⟩ := execute_end_char 0 tc0 xv0 yv0 Xsh Ysh
  rw [if_pos rfl] at hcong
  obtain ⟨zs, hzs, hsum⟩ := run_ends_sum_tail tas tbs tcs xvs yvs 1 Xsh Ysh
    le_rfl h1 h2 h3 h4
  have hbind : ∀ {α β : Type} (a : α) (f : α → Except String β),
      (Except.ok a >>= f) = f a := fun a f => rfl
  refine ⟨.shareE 0 zv :: zs, ?_, ?_⟩
  · simp only [expected_states, run_ends, zero_add, hz, hzs, hbind]
  · simp only [List.map_cons, List.sum_cons, FieldElement.value]
    have htot := hcong.add hsum
    rw [show tc0 + tcs.sum + reconstruct_secret Ysh * (xv0 + xvs.sum)
          + reconstruct_secret Xsh * (yv0 + yvs.sum)
          - reconstruct_secret Xsh * reconstruct_secret Ysh
        = (tc0 + reconstruct_secret Ysh * xv0 + reconstruct_secret Xsh * yv0
            - reconstruct_secret Xsh * reconstruct_secret Ysh)
          + (tcs.sum + reconstruct_secret Ysh * xvs.sum
            + reconstruct_secret Xsh * yvs.sum) by ring]
    exact htot

theorem share_secret_value_sum (s : Int) (n : Nat) (r : List Int) :
    Int.ModEq default_q (((share_secret s n r).map FieldElement.value).sum) s := by
  unfold share_secret
  rw [shares_from_map_value]
  exact (sum_map_emod _).trans (share_values_sum s _)

theorem beaver_core (ta0 tb0 tc0 xv0 yv0 : Int) (tas tbs tcs xvs yvs : List Int)
    (x y a b : Int)
    (hl1 : tas.length = tbs.length) (hl2 : tas.length = tcs.length)
    (hl3 : tas.length = xvs.length) (hl4 : tas.length = yvs.length)
    (hta : Int.ModEq default_q ((ta0 :: tas).sum) a)
    (htb : Int.ModEq default_q ((tb0 :: tbs).sum) b)
    (htc : Int.ModEq default_q ((tc0 :: tcs).sum) (a * b))
    (hvx : Int.ModEq default_q ((xv0 :: xvs).sum) x)
    (hvy : Int.ModEq default_q ((yv0 :: yvs).sum) y) :
    ∃ zs, beaver_protocol ((ta0 :: tas).zip ((tb0 :: tbs).zip (tc0 :: tcs)))
        (shares_from (xv0 :: xvs) 0) (shares_from (yv0 :: yvs) 0) = .ok zs ∧
      reconstruct_secret zs = (x * y) % default_q := by
  have hstarts := run_starts_ok (ta0 :: tas) (tb0 :: tbs) (tc0 :: tcs)
    (xv0 :: xvs) (yv0 :: yvs) 0 (by simp [hl1]) (by simp [hl2]) (by simp [hl3])
    (by simp [hl4])
  obtain ⟨zs, hzs, hsum⟩ := run_ends_sum_all ta0 tb0 tc0 xv0 yv0 tas tbs tcs xvs yvs
    ((expected_states (ta0 :: tas) (tb0 :: tbs) (tc0 :: tcs)
        (xv0 :: xvs) (yv0 :: yvs) 0).map (fun s => s.2.1))
    ((expected_states (ta0 :: tas) (tb0 :: tbs) (tc0 :: tcs)
        (xv0 :: xvs) (yv0 :: yvs) 0).map (fun s => s.2.2))
    hl1 hl2 hl3 hl4
  have hSX : Int.ModEq default_q
      (reconstruct_secret ((expected_states (ta0 :: tas) (tb0 :: tbs) (tc0 :: tcs)
        (xv0 :: xvs) (yv0 :: yvs) 0).map (fun s => s.2.1))) (x - a) := by
    unfold reconstruct_secret
    exact (emod_cong _).trans
      ((expected_X_sum (ta0 :: tas) (tb0 :: tbs) (tc0 :: tcs) (xv0 :: xvs)
        (yv0 :: yvs) 0 (by simp [hl1]) (by simp [hl2]) (by simp [hl3])
        (by simp [hl4])).trans (hvx.sub hta))
  have hSY : Int.ModEq default_q
      (reconstruct_secret ((expected_states (ta0 :: tas) (tb0 :: tbs) (tc0 :: tcs)
        (xv0 :: xvs) (yv0 :: yvs) 0).map (fun s => s.2.2))) (y - b) := by
    unfold reconstruct_secret
    exact (emod_cong _).trans
      ((expected_Y_sum (ta0 :: tas) (tb0 :: tbs) (tc0 :: tcs) (xv0 :: xvs)
        (yv0 :: yvs) 0 (by simp [hl1]) (by simp [hl2]) (by simp [hl3])
        (by simp [hl4])).trans (hvy.sub htb))
  refine ⟨zs, ?_, ?_⟩
  · have hbind : ∀ {α β : Type} (a : α) (f : α → Except String β),
        (Except.ok a >>= f) = f a := fun a f => rfl
    simp only [beaver_protocol, hstarts, hbind]
    exact hzs
  · generalize hgx : reconstruct_secret ((expected_states (ta0 :: tas) (tb0 :: tbs)
      (tc0 :: tcs) (xv0 :: xvs) (yv0 :: yvs) 0).map (fun s => s.2.1)) = SX
      at hsum hSX
    generalize hgy : reconstruct_secret ((expected_states (ta0 :: tas) (tb0 :: tbs)
      (tc0 :: tcs) (xv0 :: xvs) (yv0 :: yvs) 0).map (fun s => s.2.2)) = SY
      at hsum hSY
    have h2 : Int.ModEq default_q
        ((tc0 :: tcs).sum + SY * (xv0 :: xvs).sum + SX * (yv0 :: yvs).sum
          - SX * SY)
        (a * b + SY * x + SX * y - SX * SY) :=
      ((htc.add ((Int.ModEq.refl SY).mul hvx)).add
        ((Int.ModEq.refl SX).mul hvy)).sub (Int.ModEq.refl (SX * SY))
    have h3 : Int.ModEq default_q (a * b + SY * x + SX * y - SX * SY)
        (a * b + (y - b) * x + (x - a) * y - (x - a) * (y - b)) :=
      (((Int.ModEq.refl (a * b)).add (hSY.mul (Int.ModEq.refl x))).add
        (hSX.mul (Int.ModEq.refl y))).sub (hSX.mul hSY)
    have hchain := hsum.trans (h2.trans h3)
    rw [show a * b + (y - b) * x + (x - a) * y - (x - a) * (y - b) = x * y
      by ring] at hchain
    exact hchain

/-- C1: Beaver multiplication correctness. For x, y in [0,Q) additively
shared among n parties (n at least 2) with an honest TPG triplet
(a, b, c = a*b mod Q) shared among the same parties, running execute_start
for every party followed by execute_end and summing all resulting z shares
mod Q yields exactly (x*y) mod Q. -/
theorem claim_C1_beaver_correctness (x y a b : Int) (n : Nat)
    (rx ry ra rb rc : List Int)
    (hx0 : 0 ≤ x) (hxq : x < default_q) (hy0 : 0 ≤ y) (hyq : y < default_q)
    (hn : 2 ≤ n)
    (hrx : rx.length = n - 1) (hry : ry.length = n - 1) (hra : ra.length = n - 1)
    (hrb : rb.length = n - 1) (hrc : rc.length = n - 1) :
    ∃ zs, beaver_protocol
        (((share_secret a n ra).map FieldElement.value).zip
          (((share_secret b n rb).map FieldElement.value).zip
            ((share_secret (a * b % default_q) n rc).map FieldElement.value)))
        (share_secret x n rx) (share_secret y n ry) = .ok zs ∧
      reconstruct_secret zs = (x * y) % default_q := by
  have hta : (share_secret a n ra).map FieldElement.value
      = (((a - (ra.take (n - 1)).sum) % default_q) % default_q)
        :: (ra.take (n - 1)).map (fun v => v % default_q) := by
    unfold share_secret
    rw [shares_from_map_value]
    rfl
  have htb : (share_secret b n rb).map FieldElement.value
      = (((b - (rb.take (n - 1)).sum) % default_q) % default_q)
        :: (rb.take (n - 1)).map (fun v => v % default_q) := by
    unfold share_secret
    rw [shares_from_map_value]
    rfl
  have htc : (share_secret (a * b % default_q) n rc).map FieldElement.value
      = (((a * b % default_q - (rc.take (n - 1)).sum) % default_q) % default_q)
        :: (rc.take (n - 1)).map (fun v => v % default_q) := by
    unfold share_secret
    rw [shares_from_map_value]
    rfl
  have hxs : share_secret x n rx
      = shares_from (((x - (rx.take (n - 1)).sum) % default_q)
          :: rx.take (n - 1)) 0 := rfl
  have hys : share_secret y n ry
      = shares_from (((y - (ry.take (n - 1)).sum) % default_q)
          :: ry.take (n - 1)) 0 := rfl
  have hta_sum := share_secret_value_sum a n ra
  have htb_sum := share_secret_value_sum b n rb
  have htc_sum := (share_secret_value_sum (a * b % default_q) n rc).trans
    (emod_cong (a * b))
  rw [hta] at hta_sum
  rw [htb] at htb_sum
  rw [htc] at htc_sum
  rw [hta, htb, htc, hxs, hys]
  exact beaver_core _ _ _ _ _ _ _ _ _ _ x y a b
    (by simp [hra, hrb]) (by simp [hra, hrc]) (by simp [hra, hrx])
    (by simp [hra, hry])
    hta_sum htb_sum htc_sum (share_values_sum x _) (share_values_sum y _)

theorem claim_C1_beaver_correctness_witness :
    ∃ zs, beaver_protocol
        (((share_secret 1 2 [7]).map FieldElement.value).zip
          (((share_secret 2 2 [8]).map FieldElement.value).zip
            ((share_secret (1 * 2 % default_q) 2 [9]).map FieldElement.value)))
        (share_secret 3 2 [5]) (share_secret 4 2 [6]) = .ok zs ∧
      reconstruct_secret zs = (3 * 4) % default_q :=
  claim_C1_beaver_correctness 3 4 1 2 2 [5] [6] [7] [8] [9]
    (by norm_num) (by norm_num [default_q]) (by norm_num)
    (by norm_num [default_q]) (by norm_num) (by norm_num) (by norm_num)
    (by norm_num) (by norm_num) (by norm_num)

theorem share_secret_length (s : Int) (n : Nat) (r : List Int)
    (hr : r.length = n - 1) (hn : 1 ≤ n) : (share_secret s n r).length = n := by
  unfold share_secret
  rw [shares_from_length]
  simp [List.length_take, hr]
  omega

/-- C4: the first retrieve_share call for an op_id caches one triplet of
share vectors; a later call with the same op_id and another registered
client returns shares of the same stored triplet (state unchanged, any
fresh randomness ignored); the reconstructed a and b secrets multiply to
the reconstructed c secret mod Q; each call returns the shares at the
caller's position in registration order. -/
theorem claim_C4_triplet_consistency (g : TrustedParamGenerator)
    (cid1 cid2 op_id : String) (rnd : TripletRand)
    (h1 : cid1 ∈ g.participant_ids) (h2 : cid2 ∈ g.participant_ids)
    (hfresh : g.generated_shares.lookup op_id = none)
    (hra : rnd.ra.length = g.participant_ids.length - 1)
    (hrb : rnd.rb.length = g.participant_ids.length - 1)
    (hrc : rnd.rc.length = g.participant_ids.length - 1) :
    ∃ g2 sa1 sb1 sc1,
      retrieve_share g cid1 op_id rnd = .ok ((sa1, sb1, sc1), g2) ∧
      g2.participant_ids = g.participant_ids ∧
      g2.generated_shares.lookup op_id
        = some (share_secret rnd.a g.participant_ids.length rnd.ra,
            share_secret rnd.b g.participant_ids.length rnd.rb,
            share_secret (rnd.a * rnd.b % default_q)
              g.participant_ids.length rnd.rc) ∧
      (share_secret rnd.a g.participant_ids.length
          rnd.ra)[g.participant_ids.indexOf cid1]? = some sa1 ∧
      (share_secret rnd.b g.participant_ids.length
          rnd.rb)[g.participant_ids.indexOf cid1]? = some sb1 ∧
      (share_secret (rnd.a * rnd.b % default_q) g.participant_ids.length
          rnd.rc)[g.participant_ids.indexOf cid1]? = some sc1 ∧
      (reconstruct_secret (share_secret rnd.a g.participant_ids.length rnd.ra)
        * reconstruct_secret (share_secret rnd.b g.participant_ids.length rnd.rb))
          % default_q
        = reconstruct_secret (share_secret (rnd.a * rnd.b % default_q)
            g.participant_ids.length rnd.rc) ∧
      (∀ rnd2 : TripletRand, ∃ sa2 sb2 sc2,
        retrieve_share g2 cid2 op_id rnd2 = .ok ((sa2, sb2, sc2), g2) ∧
        (share_secret rnd.a g.participant_ids.length
            rnd.ra)[g.participant_ids.indexOf cid2]? = some sa2 ∧
        (share_secret rnd.b g.participant_ids.length
            rnd.rb)[g.participant_ids.indexOf cid2]? = some sb2 ∧
        (share_secret (rnd.a * rnd.b % default_q) g.participant_ids.length
            rnd.rc)[g.participant_ids.indexOf cid2]? = some sc2) := by
  have hn1 : 1 ≤ g.participant_ids.length :=
    List.length_pos.mpr (List.ne_nil_of_mem h1)
  have hlenA : (share_secret rnd.a g.participant_ids.length rnd.ra).length
      = g.participant_ids.length := share_secret_length _ _ _ hra hn1
  have hlenB : (share_secret rnd.b g.participant_ids.length rnd.rb).length
      = g.participant_ids.length := share_secret_length _ _ _ hrb hn1
  have hlenC : (share_secret (rnd.a * rnd.b % default_q)
      g.participant_ids.length rnd.rc).length
      = g.participant_ids.length := share_secret_length _ _ _ hrc hn1
  have hi1 : g.participant_ids.indexOf cid1 < g.participant_ids.length :=
    List.indexOf_lt_length.mpr h1
  have hi2 : g.participant_ids.indexOf cid2 < g.participant_ids.length :=
    List.indexOf_lt_length.mpr h2
  obtain ⟨sa1, hA1⟩ : ∃ v, (share_secret rnd.a g.participant_ids.length
      rnd.ra)[g.participant_ids.indexOf cid1]? = some v :=
    ⟨_, List.getElem?_eq_getElem (by omega)⟩
  obtain ⟨sb1, hB1⟩ : ∃ v, (share_secret rnd.b g.participant_ids.length
      rnd.rb)[g.participant_ids.indexOf cid1]? = some v :=
    ⟨_, List.getElem?_eq_getElem (by omega)⟩
  obtain ⟨sc1, hC1⟩ : ∃ v, (share_secret (rnd.a * rnd.b % default_q)
      g.participant_ids.length rnd.rc)[g.participant_ids.indexOf cid1]?
        = some v :=
    ⟨_, List.getElem?_eq_getElem (by omega)⟩
  obtain ⟨sa2, hA2⟩ : ∃ v, (share_secret rnd.a g.participant_ids.length
      rnd.ra)[g.participant_ids.indexOf cid2]? = some v :=
    ⟨_, List.getElem?_eq_getElem (by omega)⟩
  obtain ⟨sb2, hB2⟩ : ∃ v, (share_secret rnd.b g.participant_ids.length
      rnd.rb)[g.participant_ids.indexOf cid2]? = some v :=
    ⟨_, List.getElem?_eq_getElem (by omega)⟩
  obtain ⟨sc2, hC2⟩ : ∃ v, (share_secret (rnd.a * rnd.b % default_q)
      g.participant_ids.length rnd.rc)[g.participant_ids.indexOf cid2]?
        = some v :=
    ⟨_, List.getElem?_eq_getElem (by omega)⟩
  refine ⟨{ g with generated_shares :=
      (op_id, (share_secret rnd.a g.participant_ids.length rnd.ra,
        share_secret rnd.b g.participant_ids.length rnd.rb,
        share_secret (rnd.a * rnd.b % default_q) g.participant_ids.length
          rnd.rc)) :: g.generated_shares },
    sa1, sb1, sc1, ?_, rfl, ?_, hA1, hB1, hC1, ?_, ?_⟩
  · simp only [retrieve_share, if_pos h1, hfresh, Option.isSome_none,
      Bool.false_eq_true, if_false, List.lookup_cons, beq_self_eq_true,
      hA1, hB1, hC1]
  · simp [List.lookup_cons]
  · rw [reconstruct_share_secret, reconstruct_share_secret,
      reconstruct_share_secret, Int.emod_emod_of_dvd _ dvd_rfl,
      ← Int.mul_emod]
  · intro rnd2
    refine ⟨sa2, sb2, sc2, ?_, hA2, hB2, hC2⟩
    simp only [retrieve_share, if_pos h2, List.lookup_cons, beq_self_eq_true,
      Option.isSome_some, if_true, hA2, hB2, hC2]

theorem claim_C4_triplet_consistency_witness :
    ∃ g2 sa1 sb1 sc1,
      retrieve_share ⟨["P0", "P1"], []⟩ "P0" "A" ⟨1, 2, [3], [4], [5]⟩
        = .ok ((sa1, sb1, sc1), g2) := by
  obtain ⟨g2, sa1, sb1, sc1, hret, _⟩ :=
    claim_C4_triplet_consistency ⟨["P0", "P1"], []⟩ "P0" "P1" "A"
      ⟨1, 2, [3], [4], [5]⟩ (by decide) (by decide) rfl (by decide) (by decide)
      (by decide)
  exact ⟨g2, sa1, sb1, sc1, hret⟩

theorem b64char_inj (a b : Nat) (ha : a < 64) (hb : b < 64)
    (h : b64char a = b64char b) : a = b := by
  unfold b64char at h
  split_ifs at h <;> omega

theorem gen_id_inj (d e : IdBytes) (hd : d.valid) (he : e.valid)
    (h : gen_id d = gen_id e) : d = e := by
  obtain ⟨d0, d1, d2, d3⟩ := d
  obtain ⟨e0, e1, e2, e3⟩ := e
  obtain ⟨hd0, hd1, hd2, hd3⟩ :
      d0 < 256 ∧ d1 < 256 ∧ d2 < 256 ∧ d3 < 256 := hd
  obtain ⟨he0, he1, he2, he3⟩ :
      e0 < 256 ∧ e1 < 256 ∧ e2 < 256 ∧ e3 < 256 := he
  dsimp only [gen_id] at h
  simp only [List.cons.injEq, and_true] at h
  obtain ⟨h1, h2, h3, h4, h5, h6⟩ := h
  have g1 := b64char_inj _ _ (by omega) (by omega) h1
  have g2 := b64char_inj _ _ (by omega) (by omega) h2
  have g3 := b64char_inj _ _ (by omega) (by omega) h3
  have g4 := b64char_inj _ _ (by omega) (by omega) h4
  have g5 := b64char_inj _ _ (by omega) (by omega) h5
  have g6 := b64char_inj _ _ (by omega) (by omega) h6
  simp only [IdBytes.mk.injEq]
  refine ⟨by omega, by omega, by omega, by omega⟩

theorem ids_build_step (f : Nat → List Nat) (k ls rs : Nat) :
    ((List.range' k ls).map f ++ (List.range' (k + ls) rs).map f)
        ++ [f (k + ls + rs)]
      = (List.range' k (ls + rs + 1)).map f := by
  have h1 : List.range' k (ls + rs + 1)
      = List.range' k (ls + rs) ++ [k + (ls + rs)] :=
    List.range'_1_concat k (ls + rs)
  have h2 : List.range' k ls ++ List.range' (k + ls) rs
      = List.range' k (ls + rs) := by
    rw [Nat.add_comm ls rs]
    exact List.range'_append_1 k ls rs
  rw [h1, ← h2]
  simp only [List.map_append, List.map_cons, List.map_nil, List.append_assoc,
    Nat.add_assoc]

theorem ids_build (st : Nat → IdBytes) (sh : ExprShape) :
    ∀ k : Nat, idsOf (build st sh k)
      = (List.range' k sh.size).map (fun j => gen_id (st j)) := by
  induction sh with
  | secretS => intro k; rfl
  | scalarS v => intro k; rfl
  | addS l r ihl ihr =>
    intro k
    simp only [build, idsOf, ExprShape.size]
    rw [ihl k, ihr (k + l.size)]
    exact ids_build_step (fun j => gen_id (st j)) k l.size r.size
  | subS l r ihl ihr =>
    intro k
    simp only [build, idsOf, ExprShape.size]
    rw [ihl k, ihr (k + l.size)]
    exact ids_build_step (fun j => gen_id (st j)) k l.size r.size
  | mulS l r ihl ihr =>
    intro k
    simp only [build, idsOf, ExprShape.size]
    rw [ihl k, ihr (k + l.size)]
    exact ids_build_step (fun j => gen_id (st j)) k l.size r.size

/-- C8 counterexample: gen_id draws 4 random bytes with no uniqueness
check, so when two constructor calls happen to draw the same bytes the
two nodes share one identifier; a two-leaf tree built from an all-zero
random stream has three equal identifiers. -/
theorem claim_C8_id_uniqueness_counterexample :
    ¬ (idsOf (build (fun _ => ⟨0, 0, 0, 0⟩) (.addS .secretS .secretS) 0)).Nodup := by
  decide

/-- C8 (amended): gen_id computes the identifier deterministically from the
four random bytes the call draws, injectively on 8-bit draws; therefore all
node identifiers of a tree built with auto-generated ids are pairwise
distinct provided the draws consumed by distinct constructor calls are
distinct. Unconditional uniqueness fails (see the counterexample). -/
theorem claim_C8_id_uniqueness (sh : ExprShape) (st : Nat → IdBytes)
    (hvalid : ∀ j, j < sh.size → (st j).valid)
    (hinj : ∀ j, j < sh.size → ∀ k, k < sh.size → st j = st k → j = k) :
    (idsOf (build st sh 0)).Nodup := by
  rw [ids_build]
  refine List.Nodup.map_on ?_ (List.nodup_range' 0 sh.size)
  intro j hj k hk hf
  have hj' : j < sh.size := by
    have := List.mem_range'_1.mp hj
    omega
  have hk' : k < sh.size := by
    have := List.mem_range'_1.mp hk
    omega
  exact hinj j hj' k hk' (gen_id_inj _ _ (hvalid j hj') (hvalid k hk') hf)

theorem claim_C8_id_uniqueness_witness :
    (idsOf (build (fun j => ⟨j, 0, 0, 0⟩) (.addS .secretS .secretS) 0)).Nodup := by
  refine claim_C8_id_uniqueness (.addS .secretS .secretS)
    (fun j => ⟨j, 0, 0, 0⟩) ?_ ?_
  · intro j hj
    simp only [ExprShape.size] at hj
    exact show j < 256 ∧ 0 < 256 ∧ 0 < 256 ∧ 0 < 256 from
      ⟨by omega, by norm_num, by norm_num, by norm_num⟩
  · intro j hj k hk h
    exact congrArg IdBytes.b0 h

/-- C10: run only completes when the expression evaluates to a Share; on
an expression built only from Scalar leaves the evaluation succeeds with a
ScalarElement and run fails on the isinstance assertion instead of
publishing the result. -/
theorem claim_C10_run_requires_share
    (recv : List Nat → Int × Int)
    (beaver : List Nat → FieldElement → FieldElement →
      Except String FieldElement)
    (rs : List (Int × Int)) :
    (∀ e : Expr, scalar_only e = true →
      (∃ v, process_expression recv beaver e = .ok (.scalarE v)) ∧
      run recv beaver rs e = .error "assert isinstance(result_share, Share)") ∧
    (∀ (e : Expr) (r : Int), run recv beaver rs e = .ok r →
      ∃ i v, process_expression recv beaver e = .ok (.shareE i v)) := by
  have hbind : ∀ {α β : Type} (a : α) (f : α → Except String β),
      (Except.ok a >>= f) = f a := fun a f => rfl
  have hmain : ∀ e : Expr, scalar_only e = true →
      ∃ v, process_expression recv beaver e = .ok (.scalarE v) := by
    intro e
    induction e with
    | secret id =>
      intro h
      simp [scalar_only] at h
    | scalar v id => exact fun _ => ⟨v % default_q, rfl⟩
    | add l r id ihl ihr =>
      intro h
      simp only [scalar_only, Bool.and_eq_true] at h
      obtain ⟨v1, h1⟩ := ihl h.1
      obtain ⟨v2, h2⟩ := ihr h.2
      refine ⟨(v1 + v2) % default_q, ?_⟩
      simp only [process_expression, h1, h2, hbind]
      rfl
    | sub l r id ihl ihr =>
      intro h
      simp only [scalar_only, Bool.and_eq_true] at h
      obtain ⟨v1, h1⟩ := ihl h.1
      obtain ⟨v2, h2⟩ := ihr h.2
      refine ⟨(v1 - v2) % default_q, ?_⟩
      simp only [process_expression, h1, h2, hbind]
      rfl
    | mul l r id ihl ihr =>
      intro h
      simp only [scalar_only, Bool.and_eq_true] at h
      obtain ⟨v1, h1⟩ := ihl h.1
      obtain ⟨v2, h2⟩ := ihr h.2
      refine ⟨(v1 * v2) % default_q, ?_⟩
      simp only [process_expression, h1, h2, hbind]
      rfl
  constructor
  · intro e he
    obtain ⟨v, hv⟩ := hmain e he
    refine ⟨⟨v, hv⟩, ?_⟩
    simp only [run, hv, hbind]
  · intro e r h
    cases hp : process_expression recv beaver e with
    | error msg =>
      rw [run] at h
      rw [hp] at h
      exact absurd h (by simp [Bind.bind, Except.bind])
    | ok fe =>
      cases fe with
      | scalarE v =>
        rw [run] at h
        rw [hp] at h
        exact absurd h (by simp [hbind])
      | shareE i v => exact ⟨i, v, rfl⟩

theorem claim_C10_run_requires_share_witness :
    (∃ v, process_expression (fun _ => (0, 0)) (fun _ _ _ => .error "")
        (.mul (.scalar 3 []) (.scalar 4 []) []) = .ok (.scalarE v)) ∧
    run (fun _ => (0, 0)) (fun _ _ _ => .error "") []
        (.mul (.scalar 3 []) (.scalar 4 []) [])
      = .error "assert isinstance(result_share, Share)" :=
  (claim_C10_run_requires_share (fun _ => (0, 0)) (fun _ _ _ => .error "")
    []).1 (.mul (.scalar 3 []) (.scalar 4 []) []) rfl

end SMC
